import Mathlib

/-!
# CopyQ: shortcut serialisation, search-filter construction, command form

A shallow embedding of

* `serializeShortcuts` / `deserializeShortcuts`, `CommandWidget::command` and
  `CommandWidget::setCommand` of `src/gui/commandwidget.cpp`;
* `FilterLineEdit::filter`, `onTextChanged`, `onMenuAction` and the signal
  wiring of the constructor of `src/gui/filterlineedit.cpp`.

A `QString` is a Lean `String`; where a text is read character by character
(split, escape, matching) the functions work on its list of characters.
What belongs to Qt and not to the program is a parameter: the portable-text
encoding of `QKeySequence`, the whitespace class of `QChar::isSpace`, the case
folding of a case-insensitive match.
-/

namespace CopyQ

/-! ## Shortcut serialiser (`commandwidget.cpp`, anonymous namespace) -/

/-- The sentinel `const char globalShortcutsDisabled[] = "DISABLED"`. -/
def globalShortcutsDisabled : String := "DISABLED"

/-- Qt's portable-text encoding of a `QKeySequence`, taken as a parameter:
`toString` is `QKeySequence::toString(QKeySequence::PortableText)` and
`fromString` is the parse of a portable text, which fails on text that is not
a key chord. -/
structure KeySequenceText (K : Type) where
  toString : K → String
  fromString : String → Option K

/-- Modelled from the spec: the `ShortcutButton` widget (its source,
`gui/shortcutbutton.cpp`, is not among the sources). It holds the ordered
bindings shown in the form. -/
structure ShortcutButton (K : Type) where
  shortcuts : List K
deriving DecidableEq, Repr

/-- Modelled from the spec: `ShortcutButton::resetShortcuts` removes every
binding. -/
def ShortcutButton.resetShortcuts {K : Type} (_b : ShortcutButton K) : ShortcutButton K :=
  ⟨[]⟩

/-- Modelled from the spec: `ShortcutButton::addShortcut(const QString &)`
parses the token as a key chord and appends it to the bindings; a token that
does not parse is skipped. -/
def ShortcutButton.addShortcut {K : Type} (codec : KeySequenceText K)
    (b : ShortcutButton K) (shortcutText : String) : ShortcutButton K :=
  match codec.fromString shortcutText with
  | some k => ⟨b.shortcuts ++ [k]⟩
  | none => b

/-- A `QCheckBox`, reduced to its check state. -/
structure QCheckBox where
  checked : Bool
deriving DecidableEq, Repr

/-- The setter `QCheckBox::setChecked`. -/
def QCheckBox.setChecked (_cb : QCheckBox) (v : Bool) : QCheckBox := ⟨v⟩

/-- The function `serializeShortcuts(shortcuts, enabled)`: the portable text of
every shortcut in order, then the sentinel when `!enabled` and the list of
texts is not empty. -/
def serializeShortcuts {K : Type} (codec : KeySequenceText K)
    (shortcuts : List K) (enabled : Bool) : List String :=
  let shortcutTexts : List String :=
    shortcuts.foldl (fun texts shortcut => texts ++ [codec.toString shortcut]) []
  if !enabled && !shortcutTexts.isEmpty then
    shortcutTexts ++ [globalShortcutsDisabled]
  else
    shortcutTexts

/-- One iteration of the `foreach` of `deserializeShortcuts`, on the pair of
the local `enabled` and the button. -/
def deserializeStep {K : Type} (codec : KeySequenceText K)
    (st : Bool × ShortcutButton K) (shortcutText : String) : Bool × ShortcutButton K :=
  if shortcutText == globalShortcutsDisabled then
    (false, st.2)
  else
    (st.1, st.2.addShortcut codec shortcutText)

/-- The function `deserializeShortcuts(serializedShortcuts, shortcutButton,
checkBoxEnabled)`. The check box pointer may be `NULL` (`none`); the result is
the button and the check box after the call. -/
def deserializeShortcuts {K : Type} (codec : KeySequenceText K)
    (serializedShortcuts : List String) (shortcutButton : ShortcutButton K)
    (checkBoxEnabled : Option QCheckBox) : ShortcutButton K × Option QCheckBox :=
  let shortcutButton := shortcutButton.resetShortcuts
  let enabled := !serializedShortcuts.isEmpty
  let st := serializedShortcuts.foldl (deserializeStep codec) (enabled, shortcutButton)
  (st.2, checkBoxEnabled.map (fun cb => cb.setChecked st.1))

/-- A concrete key-sequence encoding used to evaluate the serialiser: a key
sequence is represented by its non-empty portable text. -/
def textCodec : KeySequenceText String where
  toString := fun k => k
  fromString := fun s => if s.isEmpty then none else some s

/-! ## Filter construction (`filterlineedit.cpp`) -/

/-- The enumeration `Qt::CaseSensitivity`. -/
inductive CaseSensitivity where
  | CaseInsensitive
  | CaseSensitive
deriving DecidableEq, Repr

/-- The enumeration `QRegExp::PatternSyntax`, the two values the sources use:
`RegExp` is the default of the one-argument constructor, `RegExp2` is what
`FilterLineEdit::filter` passes. -/
inductive PatternSyntax where
  | RegExp
  | RegExp2
deriving DecidableEq, Repr

/-- What a `QRegExp` is constructed from: pattern text, case sensitivity and
pattern syntax. -/
structure QRegExp where
  pattern : String
  caseSensitivity : CaseSensitivity
  patternSyntax : PatternSyntax
deriving DecidableEq, Repr

/-- The constructor `QRegExp(const QString &pattern)`: case sensitive, syntax
`RegExp`. -/
def QRegExp.ofPattern (pattern : String) : QRegExp :=
  ⟨pattern, CaseSensitivity.CaseSensitive, PatternSyntax.RegExp⟩

/-- The predicate `QRegExp::isEmpty`: the pattern string is empty. -/
def QRegExp.isEmpty (re : QRegExp) : Bool := re.pattern.isEmpty

/-- The characters `QRegExp::escape` puts a backslash before, which are the
metacharacters of the `QRegExp` syntax: `$ ( ) * + . ? [ \ ] ^ { | }`. -/
def regExpMetaChars : List Char :=
  ['$', '(', ')', '*', '+', '.', '?', '[', '\\', ']', '^', '\x7b', '|', '\x7d']

/-- Membership in `regExpMetaChars`. -/
def isRegExpMeta (c : Char) : Bool := regExpMetaChars.contains c

/-- Qt's `QRegExp::escape(str)`: every character is appended to `quoted`, a
metacharacter after a backslash. -/
def QRegExp.escape (str : String) : String :=
  str.data.foldl
    (fun quoted c => if isRegExpMeta c then (quoted.push '\\').push c else quoted.push c) ""

/-- Scanner of `QString::split(QRegExp("\\s+"), QString::SkipEmptyParts)`:
`cur` is the part read since the last separator; a whitespace character ends
it, and it is appended to the result when it is not empty. `isSpace` is the
class `\s` of `QRegExp` (`QChar::isSpace`), taken as a parameter. -/
def splitSkipEmptyPartsAux (isSpace : Char → Bool) : List Char → List Char → List String
  | [], cur => if cur.isEmpty then [] else [String.mk cur]
  | c :: cs, cur =>
    if isSpace c then
      if cur.isEmpty then splitSkipEmptyPartsAux isSpace cs []
      else String.mk cur :: splitSkipEmptyPartsAux isSpace cs []
    else splitSkipEmptyPartsAux isSpace cs (cur ++ [c])

/-- Qt's `text.split(QRegExp("\\s+"), QString::SkipEmptyParts)`. -/
def splitSkipEmptyParts (isSpace : Char → Bool) (text : String) : List String :=
  splitSkipEmptyPartsAux isSpace text.data []

/-- The state of a `FilterLineEdit` the slots read and write: the text of the
line edit, the check state of the two menu actions, whether the single-shot
search timer `m_timerSearch` is running, and the two settings that
`onMenuAction` stores in the configuration. -/
structure FilterLineEdit where
  text : String
  actionRe : Bool
  actionCaseInsensitive : Bool
  timerSearchActive : Bool
  savedRegularExpression : Option Bool
  savedCaseInsensitive : Option Bool
deriving DecidableEq, Repr

/-- One iteration of the `foreach` of `FilterLineEdit::filter`:
`if ( !pattern.isEmpty() ) pattern.append(".*");`
`pattern.append( QRegExp::escape(str) );`. -/
def filterStep (pattern : String) (str : String) : String :=
  let pattern := if !pattern.isEmpty then pattern ++ ".*" else pattern
  pattern ++ QRegExp.escape str

/-- The method `FilterLineEdit::filter()`. -/
def FilterLineEdit.filter (isSpace : Char → Bool) (w : FilterLineEdit) : QRegExp :=
  let sensitivity :=
    if w.actionCaseInsensitive then CaseSensitivity.CaseInsensitive
    else CaseSensitivity.CaseSensitive
  let pattern : String :=
    if w.actionRe then w.text
    else (splitSkipEmptyParts isSpace w.text).foldl filterStep ""
  ⟨pattern, sensitivity, PatternSyntax.RegExp2⟩

/-- The reference definition of the pattern, in the words of the
specification: in regular-expression mode the text verbatim; otherwise the
text split at whitespace with empty tokens discarded, each token escaped, the
escaped tokens joined by `".*"`. -/
def referencePattern (isSpace : Char → Bool) (text : String) (isRegexMode : Bool) : String :=
  if isRegexMode then text
  else
    let tokens : List String :=
      ((text.data.splitOnP isSpace).filter (fun t => !t.isEmpty)).map String.mk
    ".*".intercalate (tokens.map QRegExp.escape)

/-- A text in which every metacharacter is escaped: read from the left, it
is made of non-metacharacters and of pairs of a backslash and a
metacharacter. -/
def escapedLiteral : List Char → Bool
  | [] => true
  | [c] => !isRegExpMeta c
  | c :: d :: rest =>
    if c = '\\' then isRegExpMeta d && escapedLiteral rest
    else !isRegExpMeta c && escapedLiteral (d :: rest)

/-! ### Matching (the consumer of the published filter) -/

/-- A token of a pattern text. -/
inductive PatternToken where
  | lit (c : Char)
  | any
  | star
deriving DecidableEq, Repr

/-- Modelled from the spec: the regular expressions the filter is applied as
(Qt's `QRegExp` matcher is not among the sources), for the part of the syntax
that non-regex patterns use: a character that is not a metacharacter stands
for itself, a backslash before a metacharacter makes it a literal, `.` is any
character, `*` repeats the item before it. `none` for a pattern that uses
anything else. -/
def lexPattern : List Char → Option (List PatternToken)
  | [] => some []
  | c :: cs =>
    if c = '\\' then
      match cs with
      | [] => none
      | d :: rest =>
        if isRegExpMeta d then (lexPattern rest).map (fun ts => PatternToken.lit d :: ts)
        else none
    else if c = '.' then (lexPattern cs).map (fun ts => PatternToken.any :: ts)
    else if c = '*' then (lexPattern cs).map (fun ts => PatternToken.star :: ts)
    else if isRegExpMeta c then none
    else (lexPattern cs).map (fun ts => PatternToken.lit c :: ts)

/-- What one item of a pattern matches: a given character or any character. -/
inductive PatternAtom where
  | lit (c : Char)
  | any
deriving DecidableEq, Repr

/-- An item of a pattern with its quantifier: once, or any number of times. -/
structure PatternPiece where
  atom : PatternAtom
  star : Bool
deriving DecidableEq, Repr

/-- Modelled from the spec: attaches each `*` to the item before it; `none`
when a `*` has no item before it. -/
def groupStars : List PatternToken → Option (List PatternPiece)
  | [] => some []
  | PatternToken.star :: _ => none
  | PatternToken.lit c :: PatternToken.star :: rest =>
    (groupStars rest).map (fun ps => ⟨PatternAtom.lit c, true⟩ :: ps)
  | PatternToken.any :: PatternToken.star :: rest =>
    (groupStars rest).map (fun ps => ⟨PatternAtom.any, true⟩ :: ps)
  | PatternToken.lit c :: rest =>
    (groupStars rest).map (fun ps => ⟨PatternAtom.lit c, false⟩ :: ps)
  | PatternToken.any :: rest =>
    (groupStars rest).map (fun ps => ⟨PatternAtom.any, false⟩ :: ps)

/-- Whether an item matches a character; `eqv` is the comparison of
characters of the case sensitivity in force. -/
def PatternAtom.accepts (eqv : Char → Char → Bool) : PatternAtom → Char → Bool
  | PatternAtom.lit c, d => eqv c d
  | PatternAtom.any, _ => true

/-- A starred item before the continuation `k`: `k` matches here, or the item
accepts the next character and the starred item is tried again after it. -/
def matchStar (eqv : Char → Char → Bool) (a : PatternAtom) (k : List Char → Bool) :
    List Char → Bool
  | [] => k []
  | c :: cs => k (c :: cs) || (a.accepts eqv c && matchStar eqv a k cs)

/-- Modelled from the spec: whether the pieces match a prefix of the text. -/
def matchHere (eqv : Char → Char → Bool) : List PatternPiece → List Char → Bool
  | [], _ => true
  | ⟨a, false⟩ :: ps, s =>
    match s with
    | [] => false
    | c :: cs => a.accepts eqv c && matchHere eqv ps cs
  | ⟨a, true⟩ :: ps, s => matchStar eqv a (matchHere eqv ps) s

/-- Modelled from the spec: unanchored search, the pieces match at some
position of the text. -/
def matchAnywhere (eqv : Char → Char → Bool) (ps : List PatternPiece) : List Char → Bool
  | [] => matchHere eqv ps []
  | c :: cs => matchHere eqv ps (c :: cs) || matchAnywhere eqv ps cs

/-- Modelled from the spec: the operation `matches(filter, candidateText)`,
the pattern applied as a regular expression with the filter's case sensitivity
in an unanchored search. `caseFold` is Qt's case folding, a parameter, used
when the filter is case insensitive. `none` when the pattern is outside the
modelled syntax. -/
def QRegExp.matches (caseFold : Char → Char) (filter : QRegExp) (candidateText : String) :
    Option Bool :=
  let eqv : Char → Char → Bool :=
    match filter.caseSensitivity with
    | CaseSensitivity.CaseSensitive => fun c d => c == d
    | CaseSensitivity.CaseInsensitive => fun c d => caseFold c == caseFold d
  match (lexPattern filter.pattern.data).bind groupStars with
  | none => none
  | some ps => some (matchAnywhere eqv ps candidateText.data)

/-- The candidate contains the tokens as substrings, in order and without
overlap, with arbitrary text before, between and after them. -/
def OrderedContains : List (List Char) → List Char → Prop
  | [], _ => True
  | t :: ts, s => ∃ before after, s = before ++ t ++ after ∧ OrderedContains ts after

/-- The pieces of a literal text: one unstarred literal per character. -/
def literalPieces (cs : List Char) : List PatternPiece :=
  cs.map (fun c => (⟨PatternAtom.lit c, false⟩ : PatternPiece))

/-- The pieces of the pattern built from a list of tokens: the characters of
the first token, then for each further token a starred `.` and its
characters. -/
def tokenPieces : List (List Char) → List PatternPiece
  | [] => []
  | t :: ts =>
    literalPieces t ++ ts.flatMap (fun a => ⟨PatternAtom.any, true⟩ :: literalPieces a)

/-- The ASCII whitespace characters, an instance of `isSpace` used to evaluate
the filter on concrete texts. -/
def asciiSpace (c : Char) : Bool :=
  c = ' ' || c = '\t' || c = '\n' || c = '\r' || c = '\x0b' || c = '\x0c'

/-! ### The debounced publication (`FilterLineEdit` constructor and slots) -/

/-- The two checkable actions of the menu of the left button. -/
inductive MenuAction where
  | regularExpression
  | caseInsensitive
deriving DecidableEq, Repr

/-- The events the constructor connects: `textChanged(QString)` of the line
edit (connected to `m_timerSearch->start()`), `timeout()` of the search timer
(connected to `onTextChanged()`), `triggered(QAction*)` of the menu (connected
to `onMenuAction()`). -/
inductive FilterEvent where
  | textChanged (text : String)
  | timeout
  | menuTriggered (action : MenuAction)
deriving DecidableEq, Repr

/-- The slot `FilterLineEdit::onTextChanged()`: `emit filterChanged(filter())`.
The result is the list of the filters emitted. -/
def FilterLineEdit.onTextChanged (isSpace : Char → Bool) (w : FilterLineEdit) : List QRegExp :=
  [w.filter isSpace]

/-- The slot `FilterLineEdit::onMenuAction()`: stores the two flags in the
configuration, builds the filter and emits it when it is not empty. -/
def FilterLineEdit.onMenuAction (isSpace : Char → Bool) (w : FilterLineEdit) :
    FilterLineEdit × List QRegExp :=
  let w := { w with savedRegularExpression := some w.actionRe }
  let w := { w with savedCaseInsensitive := some w.actionCaseInsensitive }
  let re := w.filter isSpace
  (w, if !re.isEmpty then [re] else [])

/-- One event of a `FilterLineEdit`: the state after it and the filters
emitted through `filterChanged` during it. A text change sets the text and
starts (or restarts) the single-shot timer; the timer fires only while it is
running, stops, and runs `onTextChanged`; a menu action toggles its checkable
action and runs `onMenuAction`. `none` when the event cannot occur. -/
def FilterLineEdit.step (isSpace : Char → Bool) (w : FilterLineEdit) :
    FilterEvent → Option (FilterLineEdit × List QRegExp)
  | FilterEvent.textChanged text =>
    some ({ w with text := text, timerSearchActive := true }, [])
  | FilterEvent.timeout =>
    if w.timerSearchActive then
      let w := { w with timerSearchActive := false }
      some (w, w.onTextChanged isSpace)
    else none
  | FilterEvent.menuTriggered MenuAction.regularExpression =>
    some (FilterLineEdit.onMenuAction isSpace { w with actionRe := !w.actionRe })
  | FilterEvent.menuTriggered MenuAction.caseInsensitive =>
    some (FilterLineEdit.onMenuAction isSpace
      { w with actionCaseInsensitive := !w.actionCaseInsensitive })

/-! ## The command form (`CommandWidget::command`, `CommandWidget::setCommand`) -/

/-- The record `Command` (declared in `common/command.h`), with the fields
that `CommandWidget::command` assigns. -/
structure Command where
  name : String
  re : QRegExp
  wndre : QRegExp
  matchCmd : String
  cmd : String
  sep : String
  input : String
  output : String
  wait : Bool
  automatic : Bool
  inMenu : Bool
  transform : Bool
  remove : Bool
  hideWindow : Bool
  enable : Bool
  icon : String
  shortcuts : List String
  globalShortcuts : List String
  tab : String
  outputTab : String
deriving DecidableEq, Repr

/-- Modelled from the spec: the widgets of the form (`ui_commandwidget.h` is
not among the sources), each reduced to the value that `command` reads and
`setCommand` writes: the text of a line edit, of the command editor, the edit
text of a combo box, the check state of a check box, the icon of the icon
button, the bindings of a shortcut button. -/
structure CommandWidgetUi (K : Type) where
  lineEditName : String
  lineEditMatch : String
  lineEditWindow : String
  lineEditMatchCmd : String
  commandEdit : String
  lineEditSeparator : String
  comboBoxInputFormat : String
  comboBoxOutputFormat : String
  checkBoxWait : QCheckBox
  checkBoxAutomatic : QCheckBox
  checkBoxInMenu : QCheckBox
  checkBoxTransform : QCheckBox
  checkBoxIgnore : QCheckBox
  checkBoxHideWindow : QCheckBox
  buttonIcon : String
  shortcutButton : ShortcutButton K
  shortcutButtonGlobalShortcut : ShortcutButton K
  checkBoxGlobalShortcut : QCheckBox
  comboBoxCopyToTab : String
  comboBoxOutputTab : String
deriving DecidableEq, Repr

/-- The method `CommandWidget::command()`. -/
def CommandWidget.command {K : Type} (codec : KeySequenceText K) (ui : CommandWidgetUi K) :
    Command where
  name := ui.lineEditName
  re := QRegExp.ofPattern ui.lineEditMatch
  wndre := QRegExp.ofPattern ui.lineEditWindow
  matchCmd := ui.lineEditMatchCmd
  cmd := ui.commandEdit
  sep := ui.lineEditSeparator
  input := ui.comboBoxInputFormat
  output := ui.comboBoxOutputFormat
  wait := ui.checkBoxWait.checked
  automatic := ui.checkBoxAutomatic.checked
  inMenu := ui.checkBoxInMenu.checked
  transform := ui.checkBoxTransform.checked
  remove := ui.checkBoxIgnore.checked
  hideWindow := ui.checkBoxHideWindow.checked
  enable := true
  icon := ui.buttonIcon
  shortcuts := serializeShortcuts codec ui.shortcutButton.shortcuts true
  globalShortcuts :=
    serializeShortcuts codec ui.shortcutButtonGlobalShortcut.shortcuts
      ui.checkBoxGlobalShortcut.checked
  tab := ui.comboBoxCopyToTab
  outputTab := ui.comboBoxOutputTab

/-- The method `CommandWidget::setCommand(c)`: every statement sets one
widget of the form, so the form after the call is given widget by widget, in
the order of the statements. The slots that the setters trigger
(`updateWidgets`, `nameChanged`, `iconChanged`, `automaticChanged`) change
only the visibility and enabledness of widgets, which `command` does not
read. -/
def CommandWidget.setCommand {K : Type} (codec : KeySequenceText K) (ui : CommandWidgetUi K)
    (c : Command) : CommandWidgetUi K where
  lineEditName := c.name
  lineEditMatch := c.re.pattern
  lineEditWindow := c.wndre.pattern
  lineEditMatchCmd := c.matchCmd
  commandEdit := c.cmd
  lineEditSeparator := c.sep
  comboBoxInputFormat := c.input
  comboBoxOutputFormat := c.output
  checkBoxWait := ui.checkBoxWait.setChecked c.wait
  checkBoxAutomatic := ui.checkBoxAutomatic.setChecked c.automatic
  checkBoxInMenu := ui.checkBoxInMenu.setChecked c.inMenu
  checkBoxTransform := ui.checkBoxTransform.setChecked c.transform
  checkBoxIgnore := ui.checkBoxIgnore.setChecked c.remove
  checkBoxHideWindow := ui.checkBoxHideWindow.setChecked c.hideWindow
  buttonIcon := c.icon
  shortcutButton := (deserializeShortcuts codec c.shortcuts ui.shortcutButton none).1
  shortcutButtonGlobalShortcut :=
    (deserializeShortcuts codec c.globalShortcuts ui.shortcutButtonGlobalShortcut
      (some ui.checkBoxGlobalShortcut)).1
  checkBoxGlobalShortcut :=
    ((deserializeShortcuts codec c.globalShortcuts ui.shortcutButtonGlobalShortcut
      (some ui.checkBoxGlobalShortcut)).2).getD ui.checkBoxGlobalShortcut
  comboBoxCopyToTab := c.tab
  comboBoxOutputTab := c.outputTab

/-- A form with empty fields, used to evaluate the mapping. -/
def blankUi : CommandWidgetUi String where
  lineEditName := ""
  lineEditMatch := ""
  lineEditWindow := ""
  lineEditMatchCmd := ""
  commandEdit := ""
  lineEditSeparator := ""
  comboBoxInputFormat := ""
  comboBoxOutputFormat := ""
  checkBoxWait := ⟨false⟩
  checkBoxAutomatic := ⟨false⟩
  checkBoxInMenu := ⟨false⟩
  checkBoxTransform := ⟨false⟩
  checkBoxIgnore := ⟨false⟩
  checkBoxHideWindow := ⟨false⟩
  buttonIcon := ""
  shortcutButton := ⟨[]⟩
  shortcutButtonGlobalShortcut := ⟨[]⟩
  checkBoxGlobalShortcut := ⟨false⟩
  comboBoxCopyToTab := ""
  comboBoxOutputTab := ""

/-- A command record used to evaluate the mapping; `enable` is a parameter. -/
def sampleCommand (enable : Bool) : Command where
  name := "Open in browser"
  re := QRegExp.ofPattern "^https?://"
  wndre := QRegExp.ofPattern ""
  matchCmd := ""
  cmd := "copyq: open(input())"
  sep := "\\n"
  input := "text/plain"
  output := ""
  wait := false
  automatic := true
  inMenu := true
  transform := false
  remove := false
  hideWindow := true
  enable := enable
  icon := "globe"
  shortcuts := ["Ctrl+B"]
  globalShortcuts := ["Meta+B", "DISABLED"]
  tab := "urls"
  outputTab := ""

/-- The sample record, enabled, with a match pattern that is case insensitive
and of syntax `RegExp2`: a `QRegExp` that the one-argument constructor does not
build. -/
def sampleCommandCaseInsensitive : Command :=
  { sampleCommand true with
    re := ⟨"^https?://", CaseSensitivity.CaseInsensitive, PatternSyntax.RegExp2⟩ }

/-! ### Lemmas on the serialiser -/

theorem foldl_append_singleton {α β : Type} (f : α → β) (xs : List α) (acc : List β) :
    xs.foldl (fun texts x => texts ++ [f x]) acc = acc ++ xs.map f := by
  induction xs generalizing acc with
  | nil => simp
  | cons x xs ih => simp [ih]

theorem serializeShortcuts_eq {K : Type} (codec : KeySequenceText K)
    (shortcuts : List K) (enabled : Bool) :
    serializeShortcuts codec shortcuts enabled =
      if !enabled && !shortcuts.isEmpty then
        shortcuts.map codec.toString ++ [globalShortcutsDisabled]
      else shortcuts.map codec.toString := by
  unfold serializeShortcuts
  simp only [foldl_append_singleton, List.nil_append]
  cases shortcuts <;> simp

theorem foldl_deserializeStep_map {K : Type} (codec : KeySequenceText K)
    (bindings : List K)
    (hsent : ∀ b ∈ bindings, codec.toString b ≠ globalShortcutsDisabled)
    (hcodec : ∀ b ∈ bindings, codec.fromString (codec.toString b) = some b)
    (e : Bool) (acc : List K) :
    (bindings.map codec.toString).foldl (deserializeStep codec) (e, ⟨acc⟩) =
      (e, ⟨acc ++ bindings⟩) := by
  induction bindings generalizing acc with
  | nil => simp
  | cons b bs ih =>
    have h1 : codec.toString b ≠ globalShortcutsDisabled := hsent b (by simp)
    have h2 : codec.fromString (codec.toString b) = some b := hcodec b (by simp)
    have hstep : deserializeStep codec (e, ⟨acc⟩) (codec.toString b) = (e, ⟨acc ++ [b]⟩) := by
      simp [deserializeStep, h1, ShortcutButton.addShortcut, h2]
    rw [List.map_cons, List.foldl_cons, hstep,
      ih (fun x hx => hsent x (by simp [hx])) (fun x hx => hcodec x (by simp [hx]))]
    simp

theorem deserializeStep_sentinel {K : Type} (codec : KeySequenceText K)
    (st : Bool × ShortcutButton K) :
    deserializeStep codec st globalShortcutsDisabled = (false, st.2) := by
  simp [deserializeStep]

theorem foldl_deserializeStep_fst {K : Type} (codec : KeySequenceText K)
    (tokens : List String) (hno : globalShortcutsDisabled ∉ tokens)
    (st : Bool × ShortcutButton K) :
    (tokens.foldl (deserializeStep codec) st).1 = st.1 := by
  induction tokens generalizing st with
  | nil => rfl
  | cons t ts ih =>
    have ht : t ≠ globalShortcutsDisabled := fun h => hno (by simp [h])
    rw [List.foldl_cons, ih (fun h => hno (by simp [h]))]
    simp [deserializeStep, ht]

/-- Round trip for any list of bindings, empty or not, and either flag: the
bindings come back, and the check box (when there is one) is enabled exactly
when the flag was set and the list is not empty. -/
theorem deserialize_serialize_any {K : Type} (codec : KeySequenceText K)
    (bindings : List K)
    (hsent : ∀ b ∈ bindings, codec.toString b ≠ globalShortcutsDisabled)
    (hcodec : ∀ b ∈ bindings, codec.fromString (codec.toString b) = some b)
    (enabled : Bool) (button : ShortcutButton K) (checkBox : Option QCheckBox) :
    deserializeShortcuts codec (serializeShortcuts codec bindings enabled) button checkBox
      = (⟨bindings⟩, checkBox.map (fun _ => ⟨enabled && !bindings.isEmpty⟩)) := by
  rw [serializeShortcuts_eq]
  unfold deserializeShortcuts
  cases bindings with
  | nil =>
    cases checkBox <;> simp [ShortcutButton.resetShortcuts, QCheckBox.setChecked]
  | cons b bs =>
    cases enabled
    · simp only [Bool.not_false, List.isEmpty_cons, Bool.and_self, if_true,
        List.foldl_append, ShortcutButton.resetShortcuts]
      rw [foldl_deserializeStep_map codec (b :: bs) hsent hcodec]
      cases checkBox <;> simp [deserializeStep_sentinel, QCheckBox.setChecked]
    · simp only [Bool.not_true, Bool.false_and, Bool.false_eq_true, if_false,
        ShortcutButton.resetShortcuts]
      rw [foldl_deserializeStep_map codec (b :: bs) hsent hcodec]
      cases checkBox <;> simp [QCheckBox.setChecked]

theorem serializeShortcuts_flag {K : Type} (codec : KeySequenceText K)
    (bindings : List K) (enabled : Bool) :
    serializeShortcuts codec bindings (enabled && !bindings.isEmpty)
      = serializeShortcuts codec bindings enabled := by
  rw [serializeShortcuts_eq, serializeShortcuts_eq]
  cases bindings <;> cases enabled <;> simp

/-! ### Claims on the serialiser -/

/-- C1: enabled round trip. For a non-empty list of bindings none of whose
portable texts is the sentinel (the portable text of each binding parsing back
to it), deserialising `serializeShortcuts bindings true` leaves exactly the
bindings, in order, in the button and sets the check box to enabled. -/
theorem deserialize_serialize_enabled {K : Type} (codec : KeySequenceText K)
    (bindings : List K) (hne : bindings ≠ [])
    (hsent : ∀ b ∈ bindings, codec.toString b ≠ globalShortcutsDisabled)
    (hcodec : ∀ b ∈ bindings, codec.fromString (codec.toString b) = some b)
    (button : ShortcutButton K) (checkBox : QCheckBox) :
    deserializeShortcuts codec (serializeShortcuts codec bindings true) button (some checkBox)
      = (⟨bindings⟩, some ⟨true⟩) := by
  have hs : serializeShortcuts codec bindings true = bindings.map codec.toString := by
    rw [serializeShortcuts_eq]; simp
  have hemp : (bindings.map codec.toString).isEmpty = false := by
    cases bindings with
    | nil => exact absurd rfl hne
    | cons b bs => rfl
  unfold deserializeShortcuts
  simp only [hs, hemp, ShortcutButton.resetShortcuts, Bool.not_false]
  rw [foldl_deserializeStep_map codec bindings hsent hcodec]
  simp [QCheckBox.setChecked]

/-- The enabled round trip on the bindings `Ctrl+C`, `Meta+V`, from a button
that held `F1` and an unchecked box. -/
theorem deserialize_serialize_enabled_witness :
    ["Ctrl+C", "Meta+V"] ≠ [] ∧
    deserializeShortcuts textCodec (serializeShortcuts textCodec ["Ctrl+C", "Meta+V"] true)
        ⟨["F1"]⟩ (some ⟨false⟩)
      = (⟨["Ctrl+C", "Meta+V"]⟩, some ⟨true⟩) :=
  ⟨by decide, deserialize_serialize_enabled textCodec ["Ctrl+C", "Meta+V"] (by decide)
    (by decide) (by decide) ⟨["F1"]⟩ ⟨false⟩⟩

/-- C2: disabled round trip. For a non-empty list of bindings none of whose
portable texts is the sentinel (the portable text of each binding parsing back
to it), `serializeShortcuts bindings false` is the portable texts in order
followed by the sentinel, which so occurs exactly once, and deserialising it
leaves exactly the bindings in the button and sets the check box to
disabled. -/
theorem deserialize_serialize_disabled {K : Type} (codec : KeySequenceText K)
    (bindings : List K) (hne : bindings ≠ [])
    (hsent : ∀ b ∈ bindings, codec.toString b ≠ globalShortcutsDisabled)
    (hcodec : ∀ b ∈ bindings, codec.fromString (codec.toString b) = some b)
    (button : ShortcutButton K) (checkBox : QCheckBox) :
    serializeShortcuts codec bindings false
        = bindings.map codec.toString ++ [globalShortcutsDisabled] ∧
    (serializeShortcuts codec bindings false).count globalShortcutsDisabled = 1 ∧
    deserializeShortcuts codec (serializeShortcuts codec bindings false) button (some checkBox)
      = (⟨bindings⟩, some ⟨false⟩) := by
  have hs : serializeShortcuts codec bindings false
      = bindings.map codec.toString ++ [globalShortcutsDisabled] := by
    rw [serializeShortcuts_eq]
    cases bindings with
    | nil => exact absurd rfl hne
    | cons b bs => simp
  have hcount : (bindings.map codec.toString).count globalShortcutsDisabled = 0 := by
    rw [List.count_eq_zero]
    intro hmem
    obtain ⟨b, hb, hbe⟩ := List.mem_map.mp hmem
    exact hsent b hb hbe
  refine ⟨hs, ?_, ?_⟩
  · rw [hs, List.count_append, hcount]; simp
  · unfold deserializeShortcuts
    simp only [hs, List.foldl_append, ShortcutButton.resetShortcuts]
    rw [foldl_deserializeStep_map codec bindings hsent hcodec]
    simp [deserializeStep_sentinel, QCheckBox.setChecked]

/-- The disabled round trip on the binding `Ctrl+C`: the serialised list is
`Ctrl+C`, `DISABLED`, and it reads back as `Ctrl+C`, disabled. -/
theorem deserialize_serialize_disabled_witness :
    serializeShortcuts textCodec ["Ctrl+C"] false = ["Ctrl+C", "DISABLED"] ∧
    (serializeShortcuts textCodec ["Ctrl+C"] false).count globalShortcutsDisabled = 1 ∧
    deserializeShortcuts textCodec (serializeShortcuts textCodec ["Ctrl+C"] false)
        ⟨[]⟩ (some ⟨true⟩)
      = (⟨["Ctrl+C"]⟩, some ⟨false⟩) :=
  deserialize_serialize_disabled textCodec ["Ctrl+C"] (by decide) (by decide) (by decide)
    ⟨[]⟩ ⟨true⟩

/-- C3: empty case. `serializeShortcuts` of no bindings is the empty list for
both values of `enabled`, and `deserializeShortcuts` of the empty token list
leaves no binding in the button and sets the check box to disabled. -/
theorem serialize_deserialize_empty {K : Type} (codec : KeySequenceText K) :
    (∀ enabled : Bool, serializeShortcuts codec ([] : List K) enabled = []) ∧
    ∀ (button : ShortcutButton K) (checkBox : QCheckBox),
      deserializeShortcuts codec [] button (some checkBox) = (⟨[]⟩, some ⟨false⟩) := by
  constructor
  · intro enabled
    cases enabled <;> rfl
  · intro button checkBox
    rfl

/-- C4, as the claim states it, fails: deserialising the empty list (which
carries no disabled-marker) does not yield an enabled check box. -/
theorem deserialize_empty_not_enabled :
    deserializeShortcuts textCodec [] ⟨[]⟩ (some ⟨true⟩) ≠ (⟨[]⟩, some ⟨true⟩) := by
  decide

/-- C4, amended: deserialising a token list that carries no disabled-marker
sets the check box to enabled exactly when the list is not empty; the empty
list yields no bindings and a disabled check box. -/
theorem deserialize_no_marker {K : Type} (codec : KeySequenceText K)
    (tokens : List String) (hno : globalShortcutsDisabled ∉ tokens)
    (button : ShortcutButton K) (checkBox : QCheckBox) :
    (deserializeShortcuts codec tokens button (some checkBox)).2
        = some ⟨!tokens.isEmpty⟩ ∧
    (tokens = [] →
      deserializeShortcuts codec tokens button (some checkBox) = (⟨[]⟩, some ⟨false⟩)) := by
  constructor
  · unfold deserializeShortcuts
    simp only [Option.map_some', QCheckBox.setChecked]
    rw [foldl_deserializeStep_fst codec tokens hno]
  · intro h
    subst h
    rfl

/-- The empty token list read into a button that held `F1` and a checked box:
no binding, box unchecked. -/
theorem deserialize_no_marker_witness :
    (deserializeShortcuts textCodec [] ⟨["F1"]⟩ (some ⟨true⟩)).2 = some ⟨false⟩ ∧
    (([] : List String) = [] →
      deserializeShortcuts textCodec [] ⟨["F1"]⟩ (some ⟨true⟩) = (⟨[]⟩, some ⟨false⟩)) :=
  deserialize_no_marker textCodec [] (by decide) ⟨["F1"]⟩ ⟨true⟩

/-! ### Lemmas on the filter -/

theorem escape_foldl_data (cs : List Char) (acc : String) :
    (cs.foldl (fun quoted c =>
        if isRegExpMeta c then (quoted.push '\\').push c else quoted.push c) acc).data
      = acc.data ++ cs.flatMap (fun c => if isRegExpMeta c then ['\\', c] else [c]) := by
  induction cs generalizing acc with
  | nil => simp
  | cons c cs ih =>
    rw [List.foldl_cons, ih]
    by_cases h : isRegExpMeta c = true
    · simp [h, String.push]
    · simp [h, String.push]

/-- The characters of `QRegExp::escape str`. -/
theorem escape_data (str : String) :
    (QRegExp.escape str).data
      = str.data.flatMap (fun c => if isRegExpMeta c then ['\\', c] else [c]) := by
  unfold QRegExp.escape
  rw [escape_foldl_data]
  rfl

theorem string_isEmpty_eq_false {s : String} (h : s.data ≠ []) : s.isEmpty = false := by
  cases hs : s.isEmpty
  · rfl
  · exfalso
    have h1 : s = "" := (String.isEmpty_iff s).mp hs
    apply h
    rw [h1]

theorem escape_ne_empty {str : String} (h : str.data ≠ []) : (QRegExp.escape str).data ≠ [] := by
  rw [escape_data]
  obtain ⟨cs⟩ := str
  cases cs with
  | nil => exact absurd rfl h
  | cons c cs =>
    by_cases hc : isRegExpMeta c = true <;> simp [hc]

/-- The scanner is the declarative split: the parts between whitespace
characters, the first one prefixed by `cur`, without the empty ones. -/
theorem splitSkipEmptyPartsAux_eq (isSpace : Char → Bool) (cs cur : List Char) :
    splitSkipEmptyPartsAux isSpace cs cur
      = (((cs.splitOnP isSpace).modifyHead (fun t => cur ++ t)).filter
          (fun t => !t.isEmpty)).map String.mk := by
  induction cs generalizing cur with
  | nil =>
    cases cur <;> simp [splitSkipEmptyPartsAux, List.splitOnP_nil, List.modifyHead]
  | cons c cs ih =>
    rw [List.splitOnP_cons]
    by_cases hc : isSpace c = true
    · have hnil := ih []
      simp only [List.nil_append] at hnil
      have hid : (List.splitOnP isSpace cs).modifyHead (fun t => t) = List.splitOnP isSpace cs := by
        cases List.splitOnP isSpace cs <;> rfl
      rw [hid] at hnil
      cases cur with
      | nil => simp [splitSkipEmptyPartsAux, hc, hnil, List.modifyHead]
      | cons d ds => simp [splitSkipEmptyPartsAux, hc, hnil, List.modifyHead]
    · simp only [splitSkipEmptyPartsAux, hc, Bool.false_eq_true, if_false]
      rw [ih]
      cases List.splitOnP isSpace cs with
      | nil => simp [List.modifyHead]
      | cons t ts => simp [List.modifyHead]

theorem splitSkipEmptyParts_eq (isSpace : Char → Bool) (text : String) :
    splitSkipEmptyParts isSpace text
      = ((text.data.splitOnP isSpace).filter (fun t => !t.isEmpty)).map String.mk := by
  unfold splitSkipEmptyParts
  rw [splitSkipEmptyPartsAux_eq]
  cases List.splitOnP isSpace text.data <;> simp [List.modifyHead]

theorem splitSkipEmptyPartsAux_all_space (isSpace : Char → Bool) (cs : List Char)
    (hall : ∀ c ∈ cs, isSpace c = true) : splitSkipEmptyPartsAux isSpace cs [] = [] := by
  induction cs with
  | nil => rfl
  | cons c cs ih =>
    have hc : isSpace c = true := hall c (by simp)
    simp [splitSkipEmptyPartsAux, hc, ih (fun x hx => hall x (by simp [hx]))]

/-- Every token of the split is non-empty. -/
theorem splitSkipEmptyParts_ne_empty (isSpace : Char → Bool) (text : String) :
    ∀ t ∈ splitSkipEmptyParts isSpace text, t.data ≠ [] := by
  intro t ht
  rw [splitSkipEmptyParts_eq] at ht
  obtain ⟨cs, hcs, rfl⟩ := List.mem_map.mp ht
  have h := (List.mem_filter.mp hcs).2
  intro hnil
  simp only [] at hnil
  simp [hnil] at h

/-- From a non-empty accumulator the loop of `filter` is the accumulating
loop of `String.intercalate`. -/
theorem foldl_filterStep_eq_go (tokens : List String) (acc : String) (hacc : acc.data ≠ [])
    (htok : ∀ t ∈ tokens, t.data ≠ []) :
    tokens.foldl filterStep acc
      = String.intercalate.go acc ".*" (tokens.map QRegExp.escape) := by
  induction tokens generalizing acc with
  | nil => rfl
  | cons t ts ih =>
    have hstep : filterStep acc t = acc ++ ".*" ++ QRegExp.escape t := by
      simp [filterStep, string_isEmpty_eq_false hacc]
    have hne : (acc ++ ".*" ++ QRegExp.escape t).data ≠ [] := by
      simp [hacc]
    rw [List.foldl_cons, hstep, ih _ hne (fun x hx => htok x (by simp [hx]))]
    rfl

theorem foldl_filterStep_eq_intercalate (tokens : List String)
    (htok : ∀ t ∈ tokens, t.data ≠ []) :
    tokens.foldl filterStep "" = ".*".intercalate (tokens.map QRegExp.escape) := by
  cases tokens with
  | nil => rfl
  | cons t ts =>
    have hstep : filterStep "" t = QRegExp.escape t := by
      have h2 : ("" : String) ++ QRegExp.escape t = QRegExp.escape t := by
        apply String.ext
        simp
      have h3 : ("" : String).isEmpty = true := by decide
      simp [filterStep, h2, h3]
    have hne : (QRegExp.escape t).data ≠ [] := escape_ne_empty (htok t (by simp))
    rw [List.foldl_cons, hstep, foldl_filterStep_eq_go ts _ hne (fun x hx => htok x (by simp [hx]))]
    rfl

/-! ### Claims on the filter -/

/-- C5: the pattern of `FilterLineEdit::filter` is the reference pattern: the
text verbatim in regular-expression mode, otherwise the escaped
whitespace-separated tokens joined by `".*"`; it is the empty string when the
text has no character that is not whitespace. -/
theorem filter_pattern_eq_reference (isSpace : Char → Bool) (w : FilterLineEdit) :
    (w.filter isSpace).pattern = referencePattern isSpace w.text w.actionRe ∧
    (w.actionRe = true → (w.filter isSpace).pattern = w.text) ∧
    (w.actionRe = false → (∀ c ∈ w.text.data, isSpace c = true) →
      (w.filter isSpace).pattern = "") := by
  have href : (w.filter isSpace).pattern = referencePattern isSpace w.text w.actionRe := by
    unfold FilterLineEdit.filter referencePattern
    cases hre : w.actionRe
    · simp only [Bool.false_eq_true, if_false]
      rw [foldl_filterStep_eq_intercalate _ (splitSkipEmptyParts_ne_empty isSpace w.text),
        splitSkipEmptyParts_eq]
    · simp
  refine ⟨href, ?_, ?_⟩
  · intro hre
    simp [FilterLineEdit.filter, hre]
  · intro hre hall
    have hsplit : splitSkipEmptyParts isSpace w.text = [] :=
      splitSkipEmptyPartsAux_all_space isSpace w.text.data hall
    simp [FilterLineEdit.filter, hre, hsplit]

theorem escapedLiteral_flatMap (cs : List Char) :
    escapedLiteral (cs.flatMap (fun c => if isRegExpMeta c then ['\\', c] else [c])) = true := by
  induction cs with
  | nil => rfl
  | cons c cs ih =>
    rw [List.flatMap_cons]
    by_cases hc : isRegExpMeta c = true
    · simp only [hc, if_true, List.cons_append, List.nil_append, escapedLiteral]
      simp [ih]
    · simp only [hc, Bool.false_eq_true, if_false, List.cons_append, List.nil_append]
      cases hrest : cs.flatMap (fun c => if isRegExpMeta c then ['\\', c] else [c]) with
      | nil => simp [escapedLiteral, hc]
      | cons d ds =>
        rw [hrest] at ih
        have hb : c ≠ '\\' := by
          intro h
          apply hc
          rw [h]
          decide
        simp [escapedLiteral, hb, hc, ih]

/-- C6: in non-regex mode the pattern is a sequence of segments joined by the
inserted `".*"` separators, one segment per token of the text, and within each
segment every metacharacter is escaped: a segment is not empty and is made of
non-metacharacters and of metacharacters each after a backslash. -/
theorem filter_pattern_escaped (isSpace : Char → Bool) (w : FilterLineEdit)
    (hre : w.actionRe = false) :
    (w.filter isSpace).pattern
        = ".*".intercalate ((splitSkipEmptyParts isSpace w.text).map QRegExp.escape) ∧
    ∀ seg ∈ (splitSkipEmptyParts isSpace w.text).map QRegExp.escape,
      seg.data ≠ [] ∧ escapedLiteral seg.data = true := by
  constructor
  · simp only [FilterLineEdit.filter, hre, Bool.false_eq_true, if_false]
    exact foldl_filterStep_eq_intercalate _ (splitSkipEmptyParts_ne_empty isSpace w.text)
  · intro seg hseg
    obtain ⟨t, ht, rfl⟩ := List.mem_map.mp hseg
    refine ⟨escape_ne_empty (splitSkipEmptyParts_ne_empty isSpace w.text t ht), ?_⟩
    rw [escape_data]
    exact escapedLiteral_flatMap t.data

/-- The text ` a.b  (c)* ` gives the pattern `a\.b.*\(c\)\*`. -/
theorem filter_pattern_escaped_witness :
    (FilterLineEdit.filter asciiSpace ⟨" a.b  (c)* ", false, true, false, none, none⟩).pattern
        = "a\\.b.*\\(c\\)\\*" ∧
    (FilterLineEdit.filter asciiSpace ⟨" a.b  (c)* ", false, true, false, none, none⟩).pattern
        = ".*".intercalate
          ((splitSkipEmptyParts asciiSpace " a.b  (c)* ").map QRegExp.escape) ∧
    ∀ seg ∈ (splitSkipEmptyParts asciiSpace " a.b  (c)* ").map QRegExp.escape,
      seg.data ≠ [] ∧ escapedLiteral seg.data = true :=
  ⟨by decide,
    filter_pattern_escaped asciiSpace ⟨" a.b  (c)* ", false, true, false, none, none⟩ rfl⟩

/-- C8: the filter is case sensitive exactly when the case-insensitive action
is not checked, whatever the text and the regular-expression flag; and the
case flag does not alter the pattern. -/
theorem filter_caseSensitivity (isSpace : Char → Bool) (w : FilterLineEdit) :
    (w.filter isSpace).caseSensitivity
        = (if w.actionCaseInsensitive then CaseSensitivity.CaseInsensitive
           else CaseSensitivity.CaseSensitive) ∧
    ((w.filter isSpace).caseSensitivity = CaseSensitivity.CaseSensitive
        ↔ w.actionCaseInsensitive = false) ∧
    ∀ ci : Bool,
      (FilterLineEdit.filter isSpace { w with actionCaseInsensitive := ci }).pattern
        = (w.filter isSpace).pattern := by
  refine ⟨rfl, ?_, fun ci => rfl⟩
  cases h : w.actionCaseInsensitive <;> simp [FilterLineEdit.filter, h]

/-! ### Lemmas on matching -/

theorem flatMap_map_eq {α β γ : Type} (f : α → β) (g : β → List γ) (l : List α) :
    (l.map f).flatMap g = l.flatMap (fun a => g (f a)) := by
  induction l with
  | nil => rfl
  | cons a as ih => rw [List.map_cons, List.flatMap_cons, List.flatMap_cons, ih]

theorem intercalate_go_data (sep : String) (l : List String) (acc : String) :
    (String.intercalate.go acc sep l).data
      = acc.data ++ l.flatMap (fun a => sep.data ++ a.data) := by
  induction l generalizing acc with
  | nil => simp [String.intercalate.go]
  | cons a as ih => simp [String.intercalate.go, ih]

theorem lexPattern_cons_of_ne_backslash (c : Char) (cs : List Char) (hb : c ≠ '\\') :
    lexPattern (c :: cs)
      = if c = '.' then (lexPattern cs).map (fun ts => PatternToken.any :: ts)
        else if c = '*' then (lexPattern cs).map (fun ts => PatternToken.star :: ts)
        else if isRegExpMeta c then none
        else (lexPattern cs).map (fun ts => PatternToken.lit c :: ts) := by
  cases cs <;> simp [lexPattern, hb]

theorem lexPattern_escaped (cs rest : List Char) :
    lexPattern (cs.flatMap (fun c => if isRegExpMeta c then ['\\', c] else [c]) ++ rest)
      = (lexPattern rest).map (fun ts => cs.map PatternToken.lit ++ ts) := by
  induction cs with
  | nil => simp
  | cons c cs ih =>
    rw [List.flatMap_cons, List.append_assoc]
    by_cases hc : isRegExpMeta c = true
    · simp only [hc, if_true, List.cons_append, List.nil_append, lexPattern, ih]
      simp [Option.map_map, Function.comp_def]
    · have hb : c ≠ '\\' := by
        intro h; apply hc; rw [h]; decide
      have hd : c ≠ '.' := by
        intro h; apply hc; rw [h]; decide
      have hs : c ≠ '*' := by
        intro h; apply hc; rw [h]; decide
      simp only [hc, Bool.false_eq_true, if_false, List.cons_append, List.nil_append]
      rw [lexPattern_cons_of_ne_backslash c _ hb, ih]
      simp [hd, hs, hc, Option.map_map, Function.comp_def]

theorem lexPattern_separator (rest : List Char) :
    lexPattern (".*".data ++ rest)
      = (lexPattern rest).map (fun ts => PatternToken.any :: PatternToken.star :: ts) := by
  have h : ".*".data ++ rest = '.' :: '*' :: rest := rfl
  rw [h]
  have h1 : ('.' : Char) ≠ '\\' := by decide
  have h2 : ('*' : Char) ≠ '\\' := by decide
  have h3 : ('*' : Char) ≠ '.' := by decide
  rw [lexPattern_cons_of_ne_backslash _ _ h1, lexPattern_cons_of_ne_backslash _ _ h2]
  simp [h3, Option.map_map, Function.comp_def]

/-- The tokens of the separators and escaped tokens after the first token. -/
theorem lexPattern_tail (ts : List String) :
    lexPattern (ts.flatMap (fun a => ".*".data ++ (QRegExp.escape a).data))
      = some (ts.flatMap (fun a =>
          PatternToken.any :: PatternToken.star :: a.data.map PatternToken.lit)) := by
  induction ts with
  | nil => rfl
  | cons a as ih =>
    rw [List.flatMap_cons, List.append_assoc, lexPattern_separator, escape_data,
      lexPattern_escaped, ih]
    simp

theorem groupStars_lit_cons (c : Char) (toks : List PatternToken)
    (h : toks.head? ≠ some PatternToken.star) :
    groupStars (PatternToken.lit c :: toks)
      = (groupStars toks).map (fun ps => ⟨PatternAtom.lit c, false⟩ :: ps) := by
  cases toks with
  | nil => simp [groupStars]
  | cons t toks =>
    cases t with
    | lit d => simp [groupStars]
    | any => simp [groupStars]
    | star => simp at h

theorem groupStars_lits (cs : List Char) (toks : List PatternToken)
    (h : toks.head? ≠ some PatternToken.star) :
    groupStars (cs.map PatternToken.lit ++ toks)
      = (groupStars toks).map
          (fun ps => cs.map (fun c => (⟨PatternAtom.lit c, false⟩ : PatternPiece)) ++ ps) := by
  induction cs with
  | nil => simp
  | cons c cs ih =>
    have hhead : (cs.map PatternToken.lit ++ toks).head? ≠ some PatternToken.star := by
      cases cs with
      | nil => simpa using h
      | cons d ds => simp
    rw [List.map_cons, List.cons_append, groupStars_lit_cons c _ hhead, ih]
    simp [Option.map_map, Function.comp_def]

theorem groupStars_tail (ts : List (List Char)) :
    groupStars (ts.flatMap (fun a =>
        PatternToken.any :: PatternToken.star :: a.map PatternToken.lit))
      = some (ts.flatMap (fun a => (⟨PatternAtom.any, true⟩ : PatternPiece)
          :: a.map (fun c => (⟨PatternAtom.lit c, false⟩ : PatternPiece)))) := by
  induction ts with
  | nil => rfl
  | cons a as ih =>
    have hhead : (as.flatMap (fun a =>
        PatternToken.any :: PatternToken.star :: a.map PatternToken.lit)).head?
          ≠ some PatternToken.star := by
      cases as with
      | nil => simp
      | cons b bs => simp
    rw [List.flatMap_cons, List.cons_append, List.cons_append]
    simp only [groupStars]
    rw [groupStars_lits _ _ hhead, ih]
    simp

theorem matchHere_literalPieces (cs : List Char) (ps : List PatternPiece) (s : List Char) :
    matchHere (fun c d => c == d) (literalPieces cs ++ ps) s = true
      ↔ ∃ rest, s = cs ++ rest ∧ matchHere (fun c d => c == d) ps rest = true := by
  induction cs generalizing s with
  | nil => simp [literalPieces]
  | cons c cs ih =>
    cases s with
    | nil => simp [literalPieces, matchHere]
    | cons d ds =>
      have hstep : matchHere (fun c d => c == d) (literalPieces (c :: cs) ++ ps) (d :: ds)
          = ((c == d) && matchHere (fun c d => c == d) (literalPieces cs ++ ps) ds) := rfl
      rw [hstep, Bool.and_eq_true, beq_iff_eq, ih ds]
      constructor
      · rintro ⟨rfl, rest, rfl, h⟩
        exact ⟨rest, rfl, h⟩
      · rintro ⟨rest, h, hm⟩
        rw [List.cons_append] at h
        injection h with h1 h2
        exact ⟨h1.symm, rest, h2, hm⟩

theorem matchStar_any (eqv : Char → Char → Bool) (k : List Char → Bool) (s : List Char) :
    matchStar eqv PatternAtom.any k s = true
      ↔ ∃ before after, s = before ++ after ∧ k after = true := by
  induction s with
  | nil =>
    simp only [matchStar]
    constructor
    · intro h
      exact ⟨[], [], rfl, h⟩
    · rintro ⟨before, after, h, hk⟩
      have hafter : after = [] := (List.append_eq_nil.mp h.symm).2
      rw [hafter] at hk
      exact hk
  | cons c cs ih =>
    simp only [matchStar, PatternAtom.accepts, Bool.true_and, Bool.or_eq_true, ih]
    constructor
    · rintro (h | ⟨before, after, rfl, hk⟩)
      · exact ⟨[], c :: cs, rfl, h⟩
      · exact ⟨c :: before, after, rfl, hk⟩
    · rintro ⟨before, after, h, hk⟩
      cases before with
      | nil =>
        left
        rw [List.nil_append] at h
        rw [h]
        exact hk
      | cons b bs =>
        right
        rw [List.cons_append] at h
        injection h with h1 h2
        exact ⟨bs, after, h2, hk⟩

theorem matchAnywhere_iff (eqv : Char → Char → Bool) (ps : List PatternPiece) (s : List Char) :
    matchAnywhere eqv ps s = true
      ↔ ∃ before after, s = before ++ after ∧ matchHere eqv ps after = true := by
  induction s with
  | nil =>
    simp only [matchAnywhere]
    constructor
    · intro h
      exact ⟨[], [], rfl, h⟩
    · rintro ⟨before, after, h, hk⟩
      have hafter : after = [] := (List.append_eq_nil.mp h.symm).2
      rw [hafter] at hk
      exact hk
  | cons c cs ih =>
    simp only [matchAnywhere, Bool.or_eq_true, ih]
    constructor
    · rintro (h | ⟨before, after, rfl, hk⟩)
      · exact ⟨[], c :: cs, rfl, h⟩
      · exact ⟨c :: before, after, rfl, hk⟩
    · rintro ⟨before, after, h, hk⟩
      cases before with
      | nil =>
        left
        rw [List.nil_append] at h
        rw [h]
        exact hk
      | cons b bs =>
        right
        rw [List.cons_append] at h
        injection h with h1 h2
        exact ⟨bs, after, h2, hk⟩

/-- After the first token: a starred `.` and the characters of each further
token match a prefix exactly when the text contains the tokens in order. -/
theorem matchHere_tail_iff (ts : List (List Char)) (s : List Char) :
    matchHere (fun c d => c == d)
        (ts.flatMap (fun a => ⟨PatternAtom.any, true⟩ :: literalPieces a)) s = true
      ↔ OrderedContains ts s := by
  induction ts generalizing s with
  | nil => simp [matchHere, OrderedContains]
  | cons a as ih =>
    rw [List.flatMap_cons, List.cons_append]
    simp only [matchHere, OrderedContains]
    rw [matchStar_any]
    constructor
    · rintro ⟨before, after, rfl, h⟩
      obtain ⟨rest, rfl, hr⟩ := (matchHere_literalPieces a _ after).mp h
      exact ⟨before, rest, by simp, (ih rest).mp hr⟩
    · rintro ⟨before, after, rfl, h⟩
      refine ⟨before, a ++ after, by simp, ?_⟩
      exact (matchHere_literalPieces a _ (a ++ after)).mpr ⟨after, rfl, (ih after).mpr h⟩

/-- The unanchored search for the pieces of a token list succeeds exactly when
the text contains the tokens in order. -/
theorem matchAnywhere_tokenPieces (ts : List (List Char)) (s : List Char) :
    matchAnywhere (fun c d => c == d) (tokenPieces ts) s = true ↔ OrderedContains ts s := by
  cases ts with
  | nil =>
    simp only [tokenPieces, OrderedContains, iff_true]
    exact (matchAnywhere_iff _ _ s).mpr ⟨[], s, rfl, rfl⟩
  | cons t ts =>
    rw [matchAnywhere_iff]
    simp only [tokenPieces, OrderedContains]
    constructor
    · rintro ⟨before, after, rfl, h⟩
      obtain ⟨rest, rfl, hr⟩ := (matchHere_literalPieces t _ after).mp h
      exact ⟨before, rest, by simp, (matchHere_tail_iff ts rest).mp hr⟩
    · rintro ⟨before, after, rfl, h⟩
      refine ⟨before, t ++ after, by simp, ?_⟩
      exact (matchHere_literalPieces t _ (t ++ after)).mpr
        ⟨after, rfl, (matchHere_tail_iff ts after).mpr h⟩

/-- The pattern joined from escaped tokens parses to the pieces of the
tokens. -/
theorem parse_intercalate_escape (tokens : List String) (htok : ∀ t ∈ tokens, t.data ≠ []) :
    (lexPattern (".*".intercalate (tokens.map QRegExp.escape)).data).bind groupStars
      = some (tokenPieces (tokens.map String.data)) := by
  cases tokens with
  | nil => rfl
  | cons t ts =>
    have hdata : (".*".intercalate ((t :: ts).map QRegExp.escape)).data
        = (QRegExp.escape t).data
          ++ ts.flatMap (fun a => ".*".data ++ (QRegExp.escape a).data) := by
      simp only [List.map_cons, String.intercalate, intercalate_go_data, flatMap_map_eq]
    have hhead : (ts.flatMap (fun a =>
        PatternToken.any :: PatternToken.star :: a.data.map PatternToken.lit)).head?
          ≠ some PatternToken.star := by
      cases ts with
      | nil => simp
      | cons b bs => simp
    have hflat : ts.flatMap (fun a =>
          PatternToken.any :: PatternToken.star :: a.data.map PatternToken.lit)
        = (ts.map String.data).flatMap (fun a =>
          PatternToken.any :: PatternToken.star :: a.map PatternToken.lit) := by
      rw [flatMap_map_eq]
    rw [hdata, escape_data, lexPattern_escaped, lexPattern_tail, Option.map_some',
      Option.some_bind, groupStars_lits _ _ hhead, hflat, groupStars_tail]
    simp [tokenPieces, literalPieces]

/-- In non-regex, case-sensitive mode the filter applied to a candidate is
defined and is the unanchored search for the pieces of the tokens. -/
theorem filter_matches_eq (isSpace : Char → Bool) (caseFold : Char → Char)
    (w : FilterLineEdit) (hre : w.actionRe = false) (hci : w.actionCaseInsensitive = false)
    (candidate : String) :
    (w.filter isSpace).matches caseFold candidate
      = some (matchAnywhere (fun c d => c == d)
          (tokenPieces ((splitSkipEmptyParts isSpace w.text).map String.data))
          candidate.data) := by
  have hpat : (w.filter isSpace).pattern
      = ".*".intercalate ((splitSkipEmptyParts isSpace w.text).map QRegExp.escape) := by
    simp only [FilterLineEdit.filter, hre, Bool.false_eq_true, if_false]
    exact foldl_filterStep_eq_intercalate _ (splitSkipEmptyParts_ne_empty isSpace w.text)
  have hcs : (w.filter isSpace).caseSensitivity = CaseSensitivity.CaseSensitive := by
    simp [FilterLineEdit.filter, hci]
  unfold QRegExp.matches
  rw [hpat, hcs, parse_intercalate_escape _ (splitSkipEmptyParts_ne_empty isSpace w.text)]

/-! ### Claims on matching -/

/-- C7: ordered containment. In non-regex, case-sensitive mode the filter
applied to a candidate in an unanchored search is defined, and it matches
exactly when the candidate contains the tokens of the text as non-overlapping
substrings in their order; with no token it matches every candidate. -/
theorem filter_matches_iff_ordered (isSpace : Char → Bool) (caseFold : Char → Char)
    (w : FilterLineEdit) (hre : w.actionRe = false) (hci : w.actionCaseInsensitive = false)
    (candidate : String) :
    (∃ b, (w.filter isSpace).matches caseFold candidate = some b) ∧
    ((w.filter isSpace).matches caseFold candidate = some true
      ↔ OrderedContains ((splitSkipEmptyParts isSpace w.text).map String.data)
          candidate.data) ∧
    (splitSkipEmptyParts isSpace w.text = [] →
      (w.filter isSpace).matches caseFold candidate = some true) := by
  have heq := filter_matches_eq isSpace caseFold w hre hci candidate
  refine ⟨⟨_, heq⟩, ?_, ?_⟩
  · rw [heq, Option.some_inj]
    exact matchAnywhere_tokenPieces _ _
  · intro hnil
    rw [heq, Option.some_inj, hnil]
    exact (matchAnywhere_tokenPieces _ _).mpr trivial

/-- The filter of `foo bar` matches `xfooXXXbarY` and does not match `barfoo`. -/
theorem filter_matches_iff_ordered_witness :
    (FilterLineEdit.filter asciiSpace ⟨"foo bar", false, false, false, none, none⟩).matches
        id "xfooXXXbarY" = some true ∧
    (FilterLineEdit.filter asciiSpace ⟨"foo bar", false, false, false, none, none⟩).matches
        id "barfoo" = some false ∧
    ((FilterLineEdit.filter asciiSpace ⟨"foo bar", false, false, false, none, none⟩).matches
        id "barfoo" = some true
      ↔ OrderedContains ((splitSkipEmptyParts asciiSpace "foo bar").map String.data)
          "barfoo".data) :=
  ⟨by decide, by decide,
    (filter_matches_iff_ordered asciiSpace id ⟨"foo bar", false, false, false, none, none⟩
      rfl rfl "barfoo").2.1⟩

/-! ### Claims on the command form -/

/-- The form after `setCommand c`, read by `command`, for a record whose
shortcut lists are in the serialiser's form: the record with the enabled flag
on and each match pattern rebuilt from its pattern text. -/
theorem command_setCommand_eq {K : Type} (codec : KeySequenceText K) (ui : CommandWidgetUi K)
    (c : Command) (localBindings globalBindings : List K) (globalEnabled : Bool)
    (hls : ∀ b ∈ localBindings, codec.toString b ≠ globalShortcutsDisabled)
    (hlc : ∀ b ∈ localBindings, codec.fromString (codec.toString b) = some b)
    (hgs : ∀ b ∈ globalBindings, codec.toString b ≠ globalShortcutsDisabled)
    (hgc : ∀ b ∈ globalBindings, codec.fromString (codec.toString b) = some b)
    (hlocal : c.shortcuts = serializeShortcuts codec localBindings true)
    (hglobal : c.globalShortcuts = serializeShortcuts codec globalBindings globalEnabled) :
    CommandWidget.command codec (CommandWidget.setCommand codec ui c)
      = { c with
          re := QRegExp.ofPattern c.re.pattern
          wndre := QRegExp.ofPattern c.wndre.pattern
          enable := true } := by
  have h1 := deserialize_serialize_any codec localBindings hls hlc true ui.shortcutButton none
  have h2 := deserialize_serialize_any codec globalBindings hgs hgc globalEnabled
    ui.shortcutButtonGlobalShortcut (some ui.checkBoxGlobalShortcut)
  have h3 := serializeShortcuts_flag codec globalBindings globalEnabled
  obtain ⟨name, re, wndre, matchCmd, cmd, sep, input, output, wait, automatic, inMenu,
    transform, remove, hideWindow, enable, icon, shortcuts, globalShortcuts, tab,
    outputTab⟩ := c
  simp only at hlocal hglobal
  subst hlocal hglobal
  simp only [CommandWidget.command, CommandWidget.setCommand, h1, h2, h3,
    QCheckBox.setChecked, Option.map_some', Option.getD_some]

/-- C9, as the claim states it, fails in two of the listed fields. A record
whose shortcut lists are in the serialiser's form and whose enabled flag is
off comes back from `setCommand` then `command` with the enabled flag on; and
an enabled record in that form whose match pattern is case insensitive comes
back with a match pattern that differs from it (the pattern text is kept, the
case sensitivity and the syntax are not). -/
theorem command_setCommand_fields_lost :
    ((sampleCommand false).shortcuts = serializeShortcuts textCodec ["Ctrl+B"] true ∧
     (sampleCommand false).globalShortcuts = serializeShortcuts textCodec ["Meta+B"] false ∧
     (CommandWidget.command textCodec
        (CommandWidget.setCommand textCodec blankUi (sampleCommand false))).enable
       ≠ (sampleCommand false).enable) ∧
    (sampleCommandCaseInsensitive.shortcuts = serializeShortcuts textCodec ["Ctrl+B"] true ∧
     sampleCommandCaseInsensitive.globalShortcuts
       = serializeShortcuts textCodec ["Meta+B"] false ∧
     (CommandWidget.command textCodec
        (CommandWidget.setCommand textCodec blankUi sampleCommandCaseInsensitive)).enable
       = sampleCommandCaseInsensitive.enable ∧
     (CommandWidget.command textCodec
        (CommandWidget.setCommand textCodec blankUi sampleCommandCaseInsensitive)).re
       ≠ sampleCommandCaseInsensitive.re ∧
     (CommandWidget.command textCodec
        (CommandWidget.setCommand textCodec blankUi sampleCommandCaseInsensitive)).re.pattern
       = sampleCommandCaseInsensitive.re.pattern) := by
  decide

/-- C9, amended: for a record `c` whose shortcut lists are in the serialiser's
form (the local list the serialisation of bindings, the global list the
serialisation of bindings and a flag; no portable text the sentinel, each
parsing back to its binding), `setCommand c` then `command` returns `c` with
every listed field unchanged except three: the enabled flag, which is always
on, and the match pattern and window match pattern, each of which comes back
as the regular expression that `QRegExp(text)` builds from its pattern text
(same pattern text, case sensitive, syntax `RegExp`). So the pattern texts are
unchanged, and when the two patterns of `c` were built by `QRegExp(text)` the
result is `c` with the enabled flag on. -/
theorem command_setCommand {K : Type} (codec : KeySequenceText K) (ui : CommandWidgetUi K)
    (c : Command) (localBindings globalBindings : List K) (globalEnabled : Bool)
    (hls : ∀ b ∈ localBindings, codec.toString b ≠ globalShortcutsDisabled)
    (hlc : ∀ b ∈ localBindings, codec.fromString (codec.toString b) = some b)
    (hgs : ∀ b ∈ globalBindings, codec.toString b ≠ globalShortcutsDisabled)
    (hgc : ∀ b ∈ globalBindings, codec.fromString (codec.toString b) = some b)
    (hlocal : c.shortcuts = serializeShortcuts codec localBindings true)
    (hglobal : c.globalShortcuts = serializeShortcuts codec globalBindings globalEnabled) :
    CommandWidget.command codec (CommandWidget.setCommand codec ui c)
        = { c with
            re := QRegExp.ofPattern c.re.pattern
            wndre := QRegExp.ofPattern c.wndre.pattern
            enable := true } ∧
    (CommandWidget.command codec (CommandWidget.setCommand codec ui c)).re.pattern
        = c.re.pattern ∧
    (CommandWidget.command codec (CommandWidget.setCommand codec ui c)).wndre.pattern
        = c.wndre.pattern ∧
    (c.re = QRegExp.ofPattern c.re.pattern → c.wndre = QRegExp.ofPattern c.wndre.pattern →
      CommandWidget.command codec (CommandWidget.setCommand codec ui c)
        = { c with enable := true }) := by
  have heq := command_setCommand_eq codec ui c localBindings globalBindings globalEnabled
    hls hlc hgs hgc hlocal hglobal
  refine ⟨heq, ?_, ?_, ?_⟩
  · rw [heq]
    rfl
  · rw [heq]
    rfl
  · intro hre hwndre
    rw [heq]
    obtain ⟨name, re, wndre, matchCmd, cmd, sep, input, output, wait, automatic, inMenu,
      transform, remove, hideWindow, enable, icon, shortcuts, globalShortcuts, tab,
      outputTab⟩ := c
    simp only at hre hwndre
    simp only [Command.mk.injEq, and_true, true_and]
    exact ⟨hre.symm, hwndre.symm⟩

/-- The mapping on the sample record with a case-insensitive match pattern, one
local binding and one disabled global binding: the match pattern comes back
case sensitive with the same pattern text, and nothing else changes. -/
theorem command_setCommand_witness :
    CommandWidget.command textCodec
        (CommandWidget.setCommand textCodec blankUi sampleCommandCaseInsensitive)
      = { sampleCommandCaseInsensitive with
          re := ⟨"^https?://", CaseSensitivity.CaseSensitive, PatternSyntax.RegExp⟩ } ∧
    CommandWidget.command textCodec
        (CommandWidget.setCommand textCodec blankUi sampleCommandCaseInsensitive)
      = { sampleCommandCaseInsensitive with
          re := QRegExp.ofPattern sampleCommandCaseInsensitive.re.pattern
          wndre := QRegExp.ofPattern sampleCommandCaseInsensitive.wndre.pattern
          enable := true } :=
  ⟨by decide,
    (command_setCommand textCodec blankUi sampleCommandCaseInsensitive ["Ctrl+B"] ["Meta+B"]
      false (by decide) (by decide) (by decide) (by decide) (by decide) (by decide)).1⟩

/-! ### Claims on the debounced publication -/

/-- C10, as the claim states it, fails: a menu action, which is not the timer
firing, publishes the filter when its pattern is not empty. -/
theorem menu_action_publishes :
    (FilterLineEdit.step asciiSpace ⟨"a", false, false, false, none, none⟩
        (FilterEvent.menuTriggered MenuAction.caseInsensitive)).map Prod.snd
      = some [⟨"a", CaseSensitivity.CaseInsensitive, PatternSyntax.RegExp2⟩] := by
  decide

/-- C10, amended: in a step of a `FilterLineEdit`, a text change sets the text,
starts the single-shot timer and publishes nothing; the timer fires only while
it is running, stops, and publishes exactly the filter built from the state; a
menu action publishes the filter built after its toggle exactly when that
filter is not empty; so a filter is published only in a step where the timer
fires or in a menu action with a non-empty filter. -/
theorem step_publication (isSpace : Char → Bool) (w w' : FilterLineEdit) (e : FilterEvent)
    (out : List QRegExp) (h : w.step isSpace e = some (w', out)) :
    (∀ text, e = FilterEvent.textChanged text →
      out = [] ∧ w'.timerSearchActive = true ∧ w'.text = text) ∧
    (e = FilterEvent.timeout →
      w.timerSearchActive = true ∧ w'.timerSearchActive = false ∧
      out = [w.filter isSpace]) ∧
    (∀ action, e = FilterEvent.menuTriggered action →
      out = if (w'.filter isSpace).isEmpty then [] else [w'.filter isSpace]) ∧
    (out ≠ [] →
      e = FilterEvent.timeout ∨
      ∃ action, e = FilterEvent.menuTriggered action ∧ (w'.filter isSpace).isEmpty = false) := by
  cases e with
  | textChanged text =>
    simp only [FilterLineEdit.step, Option.some.injEq, Prod.mk.injEq] at h
    obtain ⟨rfl, rfl⟩ := h
    simp
  | timeout =>
    by_cases ht : w.timerSearchActive = true
    · simp only [FilterLineEdit.step, ht, if_true, Option.some.injEq, Prod.mk.injEq] at h
      obtain ⟨rfl, rfl⟩ := h
      simp [ht, FilterLineEdit.onTextChanged, FilterLineEdit.filter]
    · simp [FilterLineEdit.step, ht] at h
  | menuTriggered action =>
    have hout : out = if (w'.filter isSpace).isEmpty then [] else [w'.filter isSpace] := by
      cases action <;>
      · simp only [FilterLineEdit.step, FilterLineEdit.onMenuAction, Option.some.injEq,
          Prod.mk.injEq] at h
        obtain ⟨rfl, rfl⟩ := h
        cases hemp : (FilterLineEdit.filter isSpace _).isEmpty <;> simp [hemp]
    refine ⟨by simp, by simp, fun a _ => hout, ?_⟩
    intro hne
    right
    refine ⟨action, rfl, ?_⟩
    cases hemp : (w'.filter isSpace).isEmpty
    · rfl
    · rw [hemp] at hout
      exact absurd hout hne

/-- The timer firing on the text `foo bar` publishes the filter `foo.*bar`. -/
theorem step_publication_witness :
    FilterLineEdit.step asciiSpace ⟨"foo bar", false, false, true, none, none⟩
        FilterEvent.timeout
      = some (⟨"foo bar", false, false, false, none, none⟩,
          [⟨"foo.*bar", CaseSensitivity.CaseSensitive, PatternSyntax.RegExp2⟩]) ∧
    ([(⟨"foo.*bar", CaseSensitivity.CaseSensitive, PatternSyntax.RegExp2⟩ : QRegExp)] ≠ [] →
      FilterEvent.timeout = FilterEvent.timeout ∨
      ∃ action, FilterEvent.timeout = FilterEvent.menuTriggered action ∧
        (FilterLineEdit.filter asciiSpace
          ⟨"foo bar", false, false, false, none, none⟩).isEmpty = false) :=
  ⟨by decide,
    (step_publication asciiSpace ⟨"foo bar", false, false, true, none, none⟩
      ⟨"foo bar", false, false, false, none, none⟩ FilterEvent.timeout
      [⟨"foo.*bar", CaseSensitivity.CaseSensitive, PatternSyntax.RegExp2⟩] (by decide)).2.2.2⟩

/-! ### Load/save stability of the serialiser -/

/-- The flag after the loop of `deserializeShortcuts`: the initial flag, unless
a token was the sentinel. -/
theorem foldl_deserializeStep_flag {K : Type} (codec : KeySequenceText K)
    (tokens : List String) (st : Bool × ShortcutButton K) :
    (tokens.foldl (deserializeStep codec) st).1
      = (st.1 && !tokens.contains globalShortcutsDisabled) := by
  induction tokens generalizing st with
  | nil => simp
  | cons t ts ih =>
    rw [List.foldl_cons, ih]
    by_cases ht : t = globalShortcutsDisabled
    · subst ht
      simp [deserializeStep]
    · have ht2 : ¬ globalShortcutsDisabled = t := fun h => ht h.symm
      simp [deserializeStep, ht, ht2]

/-- What `deserializeShortcuts` leaves in the check box: enabled exactly when
the token list is not empty and holds no sentinel. -/
theorem deserializeShortcuts_flag {K : Type} (codec : KeySequenceText K)
    (tokens : List String) (button : ShortcutButton K) (checkBox : QCheckBox) :
    (deserializeShortcuts codec tokens button (some checkBox)).2
      = some ⟨!tokens.isEmpty && !tokens.contains globalShortcutsDisabled⟩ := by
  unfold deserializeShortcuts
  simp only [Option.map_some', QCheckBox.setChecked]
  rw [foldl_deserializeStep_flag]

/-- C11, as the claim states it, fails: the list holding one token that is not
a key chord loads as no binding with the box enabled; saved, that is the empty
list, which loads as no binding with the box disabled. -/
theorem reload_changes_enabled :
    deserializeShortcuts textCodec [""] ⟨[]⟩ (some ⟨false⟩) = (⟨[]⟩, some ⟨true⟩) ∧
    deserializeShortcuts textCodec (serializeShortcuts textCodec [] true) ⟨[]⟩ (some ⟨false⟩)
      ≠ (⟨[]⟩, some ⟨true⟩) := by
  decide

/-- C11, amended: when a token list loads as the bindings `b` and the flag `e`
(the portable text of each loaded binding not the sentinel and parsing back to
it), saving `(b, e)` and loading again gives the bindings `b` and the flag
`e && b ≠ []`: the bindings never change, and the flag changes only when
`b` is empty and `e` is on, which is when the list was not empty, held no
sentinel, and none of its tokens parsed. The saved list holds the sentinel at
most once, and only as its last element after the texts of a non-empty `b`. -/
theorem reload_stable {K : Type} (codec : KeySequenceText K) (tokens : List String)
    (button button' : ShortcutButton K) (checkBox checkBox' : QCheckBox)
    (b : List K) (e : Bool)
    (hload : deserializeShortcuts codec tokens button (some checkBox) = (⟨b⟩, some ⟨e⟩))
    (hsent : ∀ k ∈ b, codec.toString k ≠ globalShortcutsDisabled)
    (hcodec : ∀ k ∈ b, codec.fromString (codec.toString k) = some k) :
    deserializeShortcuts codec (serializeShortcuts codec b e) button' (some checkBox')
        = (⟨b⟩, some ⟨e && !b.isEmpty⟩) ∧
    (b ≠ [] ∨ e = false →
      deserializeShortcuts codec (serializeShortcuts codec b e) button' (some checkBox')
        = (⟨b⟩, some ⟨e⟩)) ∧
    (b = [] ∧ e = true → tokens ≠ [] ∧ globalShortcutsDisabled ∉ tokens) ∧
    (serializeShortcuts codec b e).count globalShortcutsDisabled ≤ 1 ∧
    (globalShortcutsDisabled ∈ serializeShortcuts codec b e →
      b ≠ [] ∧ e = false ∧
      serializeShortcuts codec b e = b.map codec.toString ++ [globalShortcutsDisabled]) := by
  have hany := deserialize_serialize_any codec b hsent hcodec e button' (some checkBox')
  simp only [Option.map_some'] at hany
  have hflag := deserializeShortcuts_flag codec tokens button checkBox
  rw [hload] at hflag
  simp only [Option.some.injEq, QCheckBox.mk.injEq] at hflag
  have hnot : globalShortcutsDisabled ∉ b.map codec.toString := by
    intro hmem
    obtain ⟨k, hk, hke⟩ := List.mem_map.mp hmem
    exact hsent k hk hke
  have hcount : (b.map codec.toString).count globalShortcutsDisabled = 0 :=
    List.count_eq_zero.mpr hnot
  refine ⟨hany, ?_, ?_, ?_, ?_⟩
  · intro h
    rw [hany]
    rcases h with h | h
    · cases b with
      | nil => exact absurd rfl h
      | cons k ks => simp
    · simp [h]
  · rintro ⟨_, he⟩
    rw [he] at hflag
    have h := hflag.symm
    rw [Bool.and_eq_true] at h
    constructor
    · intro ht
      rw [ht] at h
      simp at h
    · intro hmem
      have hc : tokens.contains globalShortcutsDisabled = true := by simpa using hmem
      rw [hc] at h
      simp at h
  · rw [serializeShortcuts_eq]
    split
    · rw [List.count_append, hcount]
      simp
    · rw [hcount]
      exact Nat.zero_le 1
  · rw [serializeShortcuts_eq]
    split
    · rename_i hc
      intro _
      simp only [Bool.and_eq_true, Bool.not_eq_true', List.isEmpty_eq_false] at hc
      refine ⟨?_, hc.1, rfl⟩
      intro hb
      rw [hb] at hc
      simp at hc
    · intro hmem
      exact absurd hmem hnot

/-- A list with two sentinels and a token that is not a key chord loads as the
bindings `Ctrl+C`, `Meta+V`, disabled; saved and loaded again it is the same,
and the saved list ends in its only sentinel. -/
theorem reload_stable_witness :
    deserializeShortcuts textCodec ["DISABLED", "Ctrl+C", "", "DISABLED", "Meta+V"]
        ⟨["F1"]⟩ (some ⟨true⟩)
      = (⟨["Ctrl+C", "Meta+V"]⟩, some ⟨false⟩) ∧
    serializeShortcuts textCodec ["Ctrl+C", "Meta+V"] false = ["Ctrl+C", "Meta+V", "DISABLED"] ∧
    deserializeShortcuts textCodec (serializeShortcuts textCodec ["Ctrl+C", "Meta+V"] false)
        ⟨[]⟩ (some ⟨true⟩)
      = (⟨["Ctrl+C", "Meta+V"]⟩, some ⟨false⟩) :=
  ⟨by decide, by decide,
    (reload_stable textCodec ["DISABLED", "Ctrl+C", "", "DISABLED", "Meta+V"]
      ⟨["F1"]⟩ ⟨[]⟩ ⟨true⟩ ⟨true⟩ ["Ctrl+C", "Meta+V"] false (by decide) (by decide)
      (by decide)).2.1 (Or.inl (by decide))⟩

end CopyQ
